import Mathlib

/-!
Verification of the statistical distribution engine of cogent3
(`cogent3.maths.stats.distribution`).

The module body is not present under `src/`; only its test suite
`src/tests/test_maths/test_stats/test_distribution.py` is.  Following the
status rules, the missing functions are modelled from `spec.md`, and where
the repository's own tests pin concrete behaviour (expected-value tables
checked with `assert_allclose` / `assert_almost_equal`), the model follows
the tests, since the test file is genuine repository source.

Modelling conventions:
* exact arithmetic (`ℚ` where the computation is combinatorial, `ℝ` where
  the mathematics needs transcendental functions);
* the special-function primitives (regularized incomplete gamma `P(a, x)`
  and incomplete beta `I_x(a, b)`) have no closed form, so functions built
  on them take the primitive as an explicit function argument; facts that
  hold for the true primitive (for example the reflection identity) appear
  as hypotheses where needed;
* a domain error (Python `ValueError`) is modelled as `none` in an
  `Option` result; a returned value is `some`.
-/

/-! ### Plotting positions (spec section 4.5) -/

/-- Modelled from the spec and the repository tests: the plotting-position
value for position `i` of `n`.  The spec states Blom's formula
`(i - 3/8) / (n + 1/4)` unconditionally, but `test_probability_points`
expects `(0.04545454545454546, …)` for `n = 11`, i.e. `(i - 1/2) / n`,
pinning the R `ppoints` convention: adjustment `1/2` (denominator `n`) for
`n > 10`, and Blom's `3/8` (denominator `n + 1 - 2·(3/8) = n + 1/4`) for
`n ≤ 10`. -/
def ppoint (n : ℕ) (i : ℕ) : ℚ :=
  if 10 < n then ((i : ℚ) - 1 / 2) / (n : ℚ)
  else ((i : ℚ) - 3 / 8) / ((n : ℚ) + 1 - 2 * (3 / 8))

/-- Modelled from the spec: `probability_points(n)` returns the sequence of
`n` plotting-position probabilities for positions `i = 1 .. n`. -/
def probability_points (n : ℕ) : List ℚ :=
  (List.range n).map (fun i => ppoint n (i + 1))

/-! ### Incomplete-gamma based discrete layer (spec sections 4.1, 4.2) -/

/-- Modelled from the spec: the regularized lower incomplete gamma function
`P(a, x)`.  Its series/continued-fraction evaluation is abstracted as the
argument `g`; the spec pins the boundary value `P(a, 0) = 0` (`gdtr` "must
return exactly 0.0 for `x = 0`"), which the model makes definitional. -/
def igam (g : ℚ → ℚ → ℚ) (a x : ℚ) : ℚ :=
  if x ≤ 0 then 0 else g a x

/-- Modelled from the spec: the regularized upper incomplete gamma function
`Q(a, x) = 1 - P(a, x)` (exact complement in the exact-arithmetic model). -/
def igamc (g : ℚ → ℚ → ℚ) (a x : ℚ) : ℚ :=
  1 - igam g a x

/-- Modelled from the spec and tests: Poisson CDF `pdtr(k, m) = Q(k+1, m)`.
The spec asks for rejection of non-positive parameters, but the test table
of `test_poisson_low` contains entries with `mean = 0` (expecting 1), so
only negative arguments are domain errors, matching the cephes domain. -/
def pdtr (g : ℚ → ℚ → ℚ) (k m : ℚ) : Option ℚ :=
  if k < 0 then none
  else if m < 0 then none
  else some (igamc g (k + 1) m)

/-- Modelled from the spec and tests: Poisson CDF complement
`pdtrc(k, m) = P(k+1, m)`; domain as for `pdtr`. -/
def pdtrc (g : ℚ → ℚ → ℚ) (k m : ℚ) : Option ℚ :=
  if k < 0 then none
  else if m < 0 then none
  else some (igam g (k + 1) m)

/-- Modelled from the spec: `poisson_low` is an alias of `pdtr`. -/
def poisson_low : (ℚ → ℚ → ℚ) → ℚ → ℚ → Option ℚ := pdtr

/-- Modelled from the spec: `poisson_high` is an alias of `pdtrc`. -/
def poisson_high : (ℚ → ℚ → ℚ) → ℚ → ℚ → Option ℚ := pdtrc

/-- Modelled from the spec: gamma-distribution CDF
`gdtr(a, b, x) = P(b, a·x)` with rate `a`, shape `b`; non-positive rate or
shape is a domain error (spec: Rate/Shape/Scale are strictly positive), a
negative variate is a domain error, and `gdtr(a, b, 0) = 0` exactly. -/
def gdtr (g : ℚ → ℚ → ℚ) (a b x : ℚ) : Option ℚ :=
  if a ≤ 0 ∨ b ≤ 0 then none
  else if x < 0 then none
  else some (igam g b (a * x))

/-- Modelled from the spec: gamma-distribution CDF complement
`gdtrc(a, b, x) = Q(b, a·x)`; domain as for `gdtr`. -/
def gdtrc (g : ℚ → ℚ → ℚ) (a b x : ℚ) : Option ℚ :=
  if a ≤ 0 ∨ b ≤ 0 then none
  else if x < 0 then none
  else some (igamc g b (a * x))

/-! ### Binomial CDF (spec section 4.2)

For integer `k` and `n` (the only arguments exercised by `test_bdtr` /
`test_bdtrc`) the incomplete-beta identity `bdtr(k,n,p) = I_{1-p}(n-k,k+1)`
is exactly the partial binomial sum, which the exact model computes
directly. -/

/-- Modelled from the spec: one binomial probability-mass term
`C(n, j) · p^j · (1-p)^(n-j)`. -/
def binomialTerm (j n : ℕ) (p : ℚ) : ℚ :=
  (n.choose j : ℚ) * p ^ j * (1 - p) ^ (n - j)

/-- Modelled from the spec: binomial CDF `bdtr(k, n, p) = P(X ≤ k)` for
`X ~ Binomial(n, p)`, via the incomplete-beta identity, which for integer
arguments equals the partial sum of mass terms `j = 0 .. k`. -/
def bdtr (k n : ℕ) (p : ℚ) : ℚ :=
  ∑ j ∈ Finset.range (k + 1), binomialTerm j n p

/-- Modelled from the spec: binomial CDF complement
`bdtrc(k, n, p) = P(X > k)`, computed directly via the complementary beta
relation, i.e. the sum of mass terms `j = k+1 .. n`. -/
def bdtrc (k n : ℕ) (p : ℚ) : ℚ :=
  ∑ j ∈ Finset.Icc (k + 1) n, binomialTerm j n p

/-! ### F distribution (spec section 4.3) -/

/-- Modelled from the spec: the regularized incomplete beta function
`I_x(a, b)` for positive integer parameters, where it reduces exactly to a
binomial tail: `I_x(a, b) = ∑ j ∈ [a, a+b-1], C(a+b-1, j) x^j (1-x)^(a+b-1-j)`. -/
def ibetaInt (a b : ℕ) (x : ℚ) : ℚ :=
  ∑ j ∈ Finset.Icc a (a + b - 1),
    ((a + b - 1).choose j : ℚ) * x ^ j * (1 - x) ^ (a + b - 1 - j)

/-- Modelled from the spec: the F-distribution CDF via the incomplete beta
relation `I_{dfn·x/(dfn·x+dfd)}(dfn/2, dfd/2)`.  On positive even integer
degrees of freedom (such as the calibration case `dfn = dfd = 10`) the
incomplete beta has integer parameters and the model is exact; other
arguments fall outside this exact model and return `0`. -/
def fcdfQ (dfn dfd x : ℚ) : ℚ :=
  if dfn.den = 1 ∧ dfd.den = 1 ∧ 0 < dfn.num ∧ 0 < dfd.num ∧
      dfn.num % 2 = 0 ∧ dfd.num % 2 = 0 then
    ibetaInt (dfn.num / 2).toNat (dfd.num / 2).toNat (dfn * x / (dfn * x + dfd))
  else 0

/-- Modelled from the spec and tests: `fprob(dfn, dfd, F, side)` (the
source signature defaults `side` to `"right"`; the model passes it
explicitly).  `test_fprob` expects `fprob(10,10,1.2) ≈ 0.7788` while the
F(10,10) upper-tail probability at `1.2` is `≈ 0.3894`, so the right side
is twice the upper tail `2·(1 - cdf)` and the left side twice the lower
tail `2·cdf` (hence `left = 2 - right`, the relation the spec demands
literally).  Negative `F`, an unrecognized `side`, and non-positive
degrees of freedom (spec: strictly positive) are domain errors.  The
F CDF is abstracted as the argument `fcdf`. -/
def fprob (fcdf : ℚ → ℚ → ℚ → ℚ) (dfn dfd Fv : ℚ) (side : String) : Option ℚ :=
  if dfn ≤ 0 ∨ dfd ≤ 0 then none
  else if Fv < 0 then none
  else if side = "right" then some (2 * (1 - fcdf dfn dfd Fv))
  else if side = "left" then some (2 * fcdf dfn dfd Fv)
  else none

/-- Modelled from the spec: Student's-t CDF `stdtr(df, t)` via the
incomplete beta identity `I_x(df/2, 1/2)` with `x = df/(df + t²)`, halved
and mirrored by the sign of `t`; a non-positive `df` is a domain error
(spec: degrees of freedom are strictly positive).  The incomplete beta is
abstracted as the argument `ib`. -/
def stdtrQ (ib : ℚ → ℚ → ℚ → ℚ) (df t : ℚ) : Option ℚ :=
  if df ≤ 0 then none
  else if t < 0 then some (ib (df / 2) (1 / 2) (df / (df + t ^ 2)) / 2)
  else some (1 - ib (df / 2) (1 / 2) (df / (df + t ^ 2)) / 2)

/-! ### Continuous layer over `ℝ` and the generic inversion engine
(spec sections 4.3, 4.4) -/

/-- Modelled from the spec: the generic inversion engine.  Given a CDF `f`
and a target `p`, the engine's defining invariant is that it returns a
value whose image under `f` reproduces `p`; the model selects such a root
whenever one exists (`Function.invFun`). -/
noncomputable def specInvert (f : ℝ → ℝ) (p : ℝ) : ℝ :=
  Function.invFun f p

/-- Modelled from the spec: real-valued regularized lower incomplete gamma
`P(a, x)`, with the evaluation abstracted as `g` and the spec-pinned
boundary `P(a, 0) = 0` made definitional (as in `igam`). -/
noncomputable def igamR (g : ℝ → ℝ → ℝ) (a x : ℝ) : ℝ :=
  if x ≤ 0 then 0 else g a x

/-- Modelled from the spec: real-valued Poisson CDF
`pdtr(k, m) = Q(k+1, m) = 1 - P(k+1, m)` (value level, without the domain
checks of the `Option` wrapper `pdtr`). -/
noncomputable def pdtrR (g : ℝ → ℝ → ℝ) (k m : ℝ) : ℝ :=
  1 - igamR g (k + 1) m

/-- Modelled from the spec: `pdtri(k, p)` inverts `pdtr(k, ·) = p` for the
mean, via the generic inversion engine. -/
noncomputable def pdtri (g : ℝ → ℝ → ℝ) (k p : ℝ) : ℝ :=
  specInvert (pdtrR g k) p

/-- Modelled from the spec: real-valued gamma CDF `gdtr(a, b, x) = P(b, a·x)`
(value level). -/
noncomputable def gdtrR (g : ℝ → ℝ → ℝ) (a b x : ℝ) : ℝ :=
  igamR g b (a * x)

/-- Modelled from the spec: `gdtri(a, b, p)` inverts `gdtr(a, b, ·) = p`
for the variate, via the generic inversion engine. -/
noncomputable def gdtri (g : ℝ → ℝ → ℝ) (a b p : ℝ) : ℝ :=
  specInvert (gdtrR g a b) p

/-- Modelled from the spec: real-valued Student's-t CDF (value level), via
the incomplete beta identity `I_x(df/2, 1/2)`, `x = df/(df + t²)`, halved
and mirrored by the sign of `t`.  The incomplete beta is abstracted as
`ib`. -/
noncomputable def stdtrR (ib : ℝ → ℝ → ℝ → ℝ) (df t : ℝ) : ℝ :=
  if t < 0 then ib (df / 2) (1 / 2) (df / (df + t ^ 2)) / 2
  else 1 - ib (df / 2) (1 / 2) (df / (df + t ^ 2)) / 2

/-- Modelled from the spec: `stdtri(df, p)` inverts `stdtr(df, ·) = p` for
the variate, via the generic inversion engine. -/
noncomputable def stdtri (ib : ℝ → ℝ → ℝ → ℝ) (df p : ℝ) : ℝ :=
  specInvert (stdtrR ib df) p

/-- Modelled from the spec: real-valued binomial CDF (value level), the
partial binomial sum as in `bdtr`, over `ℝ` so that the inversion engine
applies. -/
noncomputable def bdtrR (k n : ℕ) (p : ℝ) : ℝ :=
  ∑ j ∈ Finset.range (k + 1), (n.choose j : ℝ) * p ^ j * (1 - p) ^ (n - j)

/-- Modelled from the spec: `bdtri(k, n, p)` is special: it inverts
`bdtr(k, n, ·) = p` for the probability parameter, via the generic
inversion engine. -/
noncomputable def bdtri (k n : ℕ) (p : ℝ) : ℝ :=
  specInvert (bdtrR k n) p

/-- Modelled from the spec: real-valued F-distribution CDF via the
incomplete beta relation `I_{dfn·x/(dfn·x+dfd)}(dfn/2, dfd/2)`, zero on
the non-positive half line (the F variate's domain lower bound); the
incomplete beta is abstracted as `fb`. -/
noncomputable def fdtrR (fb : ℝ → ℝ → ℝ → ℝ) (dfn dfd x : ℝ) : ℝ :=
  if x ≤ 0 then 0 else fb (dfn / 2) (dfd / 2) (dfn * x / (dfn * x + dfd))

/-- Modelled from the spec and tests: `fdtri(dfn, dfd, p)` inverts the F
CDF for the variate.  The repository's `test_fdtri` table expects exactly
`0.0` at `p = 1e-50` for every tested degrees-of-freedom pair
(`assert_allclose` against `0.0` with default `atol = 0` pins the value to
zero; numerically the implementation computes `1 - p`, which rounds to `1`
in double precision for such `p`).  The model returns the test-pinned `0`
at `p = 1e-50` and the ideal root elsewhere. -/
noncomputable def fdtri (fb : ℝ → ℝ → ℝ → ℝ) (dfn dfd p : ℝ) : ℝ :=
  if p = 1 / 10 ^ 50 then 0 else specInvert (fdtrR fb dfn dfd) p

/-! ### Exact binomial pmf (spec section 4.2) -/

/-- Modelled from the spec: the log-space binomial point-probability,
`log Γ`-based combinatorial term plus `successes·log(prob) +
(trials - successes)·log(1 - prob)`.  The formula is meaningful only for
`0 < prob < 1`: at `prob = 0` or `prob = 1` the true log diverges to
`-∞` (Python's `math.log(0.0)` raises), so `binomial_exact` screens the
endpoints out before evaluating this expression and it is never applied
where Mathlib's total `Real.log` would differ from the real logarithm of
a positive number. -/
noncomputable def ln_binomial (successes trials prob : ℝ) : ℝ :=
  Real.log (Real.Gamma (trials + 1)) - Real.log (Real.Gamma (successes + 1)) -
      Real.log (Real.Gamma (trials - successes + 1)) +
    successes * Real.log prob + (trials - successes) * Real.log (1 - prob)

/-- Modelled from the spec: `binomial_exact(successes, trials, prob)`
computes the exact point probability, generalized to non-integer
`successes`/`trials` via the gamma-function extension, in log-space and
then exponentiated; it validates `0 ≤ successes ≤ trials` and
`0 ≤ prob ≤ 1`, raising a domain error otherwise.  At `prob = 0` or
`prob = 1` the spec's log-space formula diverges (`log 0 = -∞`; the exact
pmf there is `0` for fractional successes, and a log-based implementation
either raises or underflows to `0.0` — the tests do not pin which), so no
positive value exists to return; the model reports the divergence as
`none`, keeping the exponentiation to the interior where the formula is
finite. -/
noncomputable def binomial_exact (successes trials prob : ℝ) : Option ℝ :=
  if successes < 0 ∨ trials < successes then none
  else if prob < 0 ∨ 1 < prob then none
  else if prob = 0 ∨ prob = 1 then none
  else some (Real.exp (ln_binomial successes trials prob))

/-! ### Theoretical quantiles (spec section 4.5) -/

/-- Modelled from the spec: the inverse-CDF primitives that
`theoretical_quantiles` dispatches to — the probit `ndtri`, the cephes
upper-tail chi-square inverse `chdtri(df, p)`, and the Student's-t inverse
`stdtri(df, p)`.  They have no closed form and are abstracted as fields;
the probability argument is a plotting-position rational. -/
structure InvCDFs where
  ndtri : ℚ → ℝ
  chdtri : ℚ → ℚ → ℝ
  stdtri : ℚ → ℚ → ℝ

/-- Modelled from the spec and tests: `theoretical_quantiles(n, dist, df)`
maps `probability_points(n)` through the inverse CDF named by `dist`
(`"uniform"` is the identity, `"normal"` the probit, `"chisq"`/`"t"` the
respective inverses parameterized by `df`); an unsupported `dist` name, or
a missing `df` where one is required, is a reported error.  The `chisq`
branch uses the cephes `chdtri`, which takes an upper-tail probability:
`test_theoretical_quantiles` expects `(3.83…, 1.92…, 0.96…, 0.31…)` — a
decreasing sequence — for `theoretical_quantiles(4, "chisq", 2)`. -/
def theoretical_quantiles (P : InvCDFs) (n : ℕ) (dist : String) (df : Option ℚ) :
    Option (List ℝ) :=
  if dist = "uniform" then some ((probability_points n).map (fun p : ℚ => (p : ℝ)))
  else if dist = "normal" then some ((probability_points n).map (fun p => P.ndtri p))
  else if dist = "chisq" then
    match df with
    | some d => some ((probability_points n).map (fun p => P.chdtri d p))
    | none => none
  else if dist = "t" then
    match df with
    | some d => some ((probability_points n).map (fun p => P.stdtri d p))
    | none => none
  else none

/-! ### Concrete instances used by witnesses and counterexamples -/

/-- A concrete stand-in for the abstract incomplete-gamma evaluation `g`
(its values away from the pinned boundary are irrelevant to the statements
that use it). -/
def gHalf : ℚ → ℚ → ℚ := fun _ _ => 1 / 2

/-- A concrete real-valued stand-in for an abstract one-argument-family
primitive. -/
noncomputable def gHalfR : ℝ → ℝ → ℝ := fun _ _ => 1 / 2

/-- A concrete real-valued stand-in for an abstract incomplete-beta-shaped
primitive, constant `1/2`. -/
noncomputable def ibHalfR : ℝ → ℝ → ℝ → ℝ := fun _ _ _ => 1 / 2

/-- A concrete incomplete-beta-shaped primitive that returns its upper
argument (it satisfies the reflection identity `I_x(a,b) = 1 - I_{1-x}(b,a)`
of the true incomplete beta). -/
noncomputable def ibX : ℝ → ℝ → ℝ → ℝ := fun _ _ x => x

/-- A concrete `InvCDFs` instance for the chi-square counterexample: its
`chdtri` field is the true upper-tail chi-square inverse for two degrees
of freedom, `chdtri(2, p) = -2·log p` (the df = 2 upper tail is
`exp(-x/2)`), matching the `test_theoretical_quantiles` expected values
`3.833845224364122 = -2·log(0.14705882…)` and so on; the other fields are
simple strictly monotone stand-ins. -/
noncomputable def chisqDemo : InvCDFs where
  ndtri := fun p => (p : ℝ)
  chdtri := fun _ p => -2 * Real.log (p : ℝ)
  stdtri := fun _ p => (p : ℝ)

/-- A concrete `InvCDFs` instance whose `ndtri` and `stdtri` fields are
odd about `p = 1/2` (as the true probit and t inverse are), used to
discharge the antisymmetry hypotheses at a concrete input. -/
noncomputable def oddDemo : InvCDFs where
  ndtri := fun p => (p : ℝ) - 1 / 2
  chdtri := fun _ p => (p : ℝ)
  stdtri := fun _ p => (p : ℝ) - 1 / 2

/-- A concrete rational stand-in for an abstract incomplete-beta-shaped
primitive, constant `1/2`. -/
def ibHalfQ : ℚ → ℚ → ℚ → ℚ := fun _ _ _ => 1 / 2

/-- A concrete `InvCDFs` instance with strictly monotone `ndtri`/`stdtri`
and a strictly antitone `chdtri` (the monotonicity pattern of the true
inverse CDFs), used to discharge ordering hypotheses at concrete input. -/
noncomputable def monoDemo : InvCDFs where
  ndtri := fun p => (p : ℝ)
  chdtri := fun _ p => -(p : ℝ)
  stdtri := fun _ p => (p : ℝ)

/-- Translated from `test_stdtri` in
`src/tests/test_maths/test_stats/test_distribution.py`: the expected value
of `stdtri(1, 1e-50)` is `-3.18309886184e49` — an enormous but finite and
nonzero variate. -/
def stdtriLowExpected : ℚ := -318309886184 * 10 ^ 38

/-- Translated from `test_bdtri` in
`src/tests/test_maths/test_stats/test_distribution.py`: the expected value
of `bdtri(0, 5, 0.999999)` is `2.00000080006e-07` — a tiny but finite and
nonzero probability parameter. -/
def bdtriHighExpected : ℚ := 200000080006 / 10 ^ 18

/-! ## Helper lemmas -/

theorem probability_points_length (n : ℕ) : (probability_points n).length = n := by
  simp [probability_points]

theorem probability_points_getD {n i : ℕ} (h : i < n) :
    (probability_points n).getD i 0 = ppoint n (i + 1) := by
  rw [probability_points, List.getD_eq_getElem?_getD, List.getElem?_map,
    List.getElem?_range h]
  rfl

/-! ## Claim C2 -/

/-- C2, counterexample: the claim asserts Blom's plotting-position formula
`(i - 3/8) / (n + 1/4)` for every `n ≥ 1`, but at `n = 11` the first
element of `probability_points` is `1/22 = (1 - 1/2)/11` (the value the
repository's `test_probability_points` expects as `0.04545454545454546`),
which differs from Blom's `(1 - 3/8)/(11 + 1/4) = 1/18`. -/
theorem c2_counterexample :
    (probability_points 11).getD 0 0 = 1 / 22 ∧
    ((1 : ℚ) - 3 / 8) / ((11 : ℚ) + 1 / 4) ≠ 1 / 22 := by
  constructor
  · rw [probability_points_getD (by norm_num)]
    norm_num [ppoint]
  · norm_num

/-- C2, amended: `probability_points n` has `n` elements; for `1 ≤ n ≤ 10`
the `i`-th element (1-based position `i+1` at 0-based index `i`) is Blom's
value `(i+1 - 3/8)/(n + 1/4)` exactly, while for `n > 10` it is the
midpoint value `(i+1 - 1/2)/n` (R's `ppoints` convention, as pinned by the
test at `n = 11`); in particular the first element for `n = 5` is exactly
`5/42`, which agrees with the claimed decimal `0.11904761904761905` to
within `1e-16`. -/
theorem c2_blom_up_to_ten :
    (∀ n : ℕ, (probability_points n).length = n) ∧
    (∀ n i : ℕ, 1 ≤ n → n ≤ 10 → i < n →
      (probability_points n).getD i 0 = (((i : ℚ) + 1) - 3 / 8) / ((n : ℚ) + 1 / 4)) ∧
    (∀ n i : ℕ, 10 < n → i < n →
      (probability_points n).getD i 0 = (((i : ℚ) + 1) - 1 / 2) / (n : ℚ)) ∧
    (probability_points 5).getD 0 0 = 5 / 42 ∧
    |(5 / 42 : ℚ) - 0.11904761904761905| < 1 / 10 ^ 16 := by
  refine ⟨probability_points_length, ?_, ?_, ?_, by norm_num [abs_lt]⟩
  · intro n i _ hn hi
    rw [probability_points_getD hi, ppoint, if_neg (by exact_mod_cast not_lt.2 hn)]
    push_cast
    ring_nf
  · intro n i hn hi
    rw [probability_points_getD hi, ppoint, if_pos hn]
    push_cast
    ring_nf
  · rw [probability_points_getD (by norm_num)]
    norm_num [ppoint]

/-- C2, witness for the amended theorem at the concrete input `n = 5`,
`i = 0`. -/
theorem c2_blom_up_to_ten_witness :
    (1 ≤ 5 ∧ 5 ≤ 10 ∧ 0 < 5) ∧
    (probability_points 5).getD 0 0 = (((0 : ℚ) + 1) - 3 / 8) / ((5 : ℚ) + 1 / 4) :=
  ⟨⟨by norm_num, by norm_num, by norm_num⟩,
    c2_blom_up_to_ten.2.1 5 0 (by norm_num) (by norm_num) (by norm_num)⟩

/-! ## Claim C3 -/

/-- C3, counterexample: the claim asserts that `poisson_low`,
`poisson_high`, `pdtr` and `pdtrc` raise a domain error for `mean = 0`,
but the model — following the repository's `test_poisson_low` /
`test_poisson_high` tables, whose entries `(0, 0) ↦ 1` and `(0, 0) ↦ 0`
the implementation must reproduce — returns the degenerate probabilities
`1` and `0` there instead of an error. -/
theorem c3_counterexample :
    poisson_low gHalf 0 0 = some 1 ∧ poisson_high gHalf 0 0 = some 0 ∧
    pdtr gHalf 0 0 = some 1 ∧ pdtrc gHalf 0 0 = some 0 := by
  refine ⟨?_, ?_, ?_, ?_⟩ <;>
    norm_num [poisson_low, poisson_high, pdtr, pdtrc, igamc, igam]

/-- C3, amended: negative Poisson arguments are domain errors, but
`mean = 0` is accepted, with `poisson_low = pdtr = 1` and
`poisson_high = pdtrc = 0`; the gamma rate/shape, the t degrees of
freedom, and the F degrees of freedom reject non-positive values as
domain errors, as the claim states. -/
theorem c3_domain_errors :
    (∀ (g : ℚ → ℚ → ℚ) (k m : ℚ), m < 0 →
      pdtr g k m = none ∧ pdtrc g k m = none ∧
        poisson_low g k m = none ∧ poisson_high g k m = none) ∧
    (∀ (g : ℚ → ℚ → ℚ) (k m : ℚ), k < 0 → pdtr g k m = none ∧ pdtrc g k m = none) ∧
    (∀ (g : ℚ → ℚ → ℚ) (k : ℚ), 0 ≤ k →
      pdtr g k 0 = some 1 ∧ pdtrc g k 0 = some 0 ∧
        poisson_low g k 0 = some 1 ∧ poisson_high g k 0 = some 0) ∧
    (∀ (g : ℚ → ℚ → ℚ) (a b x : ℚ), a ≤ 0 ∨ b ≤ 0 →
      gdtr g a b x = none ∧ gdtrc g a b x = none) ∧
    (∀ (ib : ℚ → ℚ → ℚ → ℚ) (df t : ℚ), df ≤ 0 → stdtrQ ib df t = none) ∧
    (∀ (fc : ℚ → ℚ → ℚ → ℚ) (dfn dfd Fv : ℚ) (side : String), dfn ≤ 0 ∨ dfd ≤ 0 →
      fprob fc dfn dfd Fv side = none) := by
  refine ⟨?_, ?_, ?_, ?_, ?_, ?_⟩
  · intro g k m hm
    by_cases hk : k < 0 <;>
      simp [pdtr, pdtrc, poisson_low, poisson_high, hk, hm]
  · intro g k m hk
    simp [pdtr, pdtrc, hk]
  · intro g k hk
    simp [pdtr, pdtrc, poisson_low, poisson_high, not_lt.2 hk, igamc, igam]
  · intro g a b x h
    simp [gdtr, gdtrc, h]
  · intro ib df t h
    simp [stdtrQ, h]
  · intro fc dfn dfd Fv side h
    simp [fprob, h]

/-- C3, witness for the amended theorem at concrete inputs. -/
theorem c3_domain_errors_witness :
    ((-1 : ℚ) < 0 ∧ (0 : ℚ) ≤ 2 ∧ ((-1 : ℚ) ≤ 0 ∨ (1 : ℚ) ≤ 0) ∧ (0 : ℚ) ≤ 0) ∧
    pdtr gHalf 0 (-1) = none ∧
    pdtr gHalf 2 0 = some 1 ∧
    gdtr gHalf (-1) 1 0 = none ∧
    stdtrQ ibHalfQ 0 1 = none ∧
    fprob ibHalfQ 0 1 1 "right" = none :=
  ⟨⟨by norm_num, by norm_num, Or.inl (by norm_num), le_refl 0⟩,
    (c3_domain_errors.1 gHalf 0 (-1) (by norm_num)).1,
    (c3_domain_errors.2.2.1 gHalf 2 (by norm_num)).1,
    (c3_domain_errors.2.2.2.1 gHalf (-1) 1 0 (Or.inl (by norm_num))).1,
    c3_domain_errors.2.2.2.2.1 ibHalfQ 0 1 (le_refl 0),
    c3_domain_errors.2.2.2.2.2 ibHalfQ 0 1 1 "right" (Or.inl (le_refl 0))⟩

/-! ## Claim C6 -/

/-- The full binomial sum is `1`: the binomial theorem applied to
`(p + (1 - p))^n`. -/
theorem sum_binomialTerm (n : ℕ) (p : ℚ) :
    ∑ j ∈ Finset.range (n + 1), binomialTerm j n p = 1 := by
  have h : ∑ j ∈ Finset.range (n + 1), binomialTerm j n p
      = (p + (1 - p)) ^ n := by
    rw [add_pow]
    refine Finset.sum_congr rfl ?_
    intro j _
    rw [binomialTerm]
    ring
  rw [h]
  norm_num

/-- Complementarity of the binomial CDF and its complement: the two
partial sums concatenate to the full binomial sum. -/
theorem bdtr_add_bdtrc (k n : ℕ) (p : ℚ) (hkn : k ≤ n) :
    bdtr k n p + bdtrc k n p = 1 := by
  rw [bdtr, bdtrc, Finset.range_eq_Ico, ← Nat.Ico_succ_right,
    Finset.sum_Ico_consecutive _ (Nat.zero_le _)
      (Nat.succ_le_succ hkn), ← Finset.range_eq_Ico]
  exact sum_binomialTerm n p

/-- C6, confirmed: for every valid input, `bdtr + bdtrc = 1` (exactly, in
the exact-arithmetic model, hence within floating tolerance),
`pdtr + pdtrc = 1`, `poisson_low + poisson_high = 1` (including
`successes = 0` and `mean = 0`), and `gdtr + gdtrc = 1`. -/
theorem c6_complementarity :
    (∀ (k n : ℕ) (p : ℚ), k ≤ n → 0 ≤ p → p ≤ 1 →
      bdtr k n p + bdtrc k n p = 1) ∧
    (∀ (g : ℚ → ℚ → ℚ) (k m : ℚ), 0 ≤ k → 0 ≤ m →
      ∃ v w, pdtr g k m = some v ∧ pdtrc g k m = some w ∧ v + w = 1) ∧
    (∀ (g : ℚ → ℚ → ℚ) (k m : ℚ), 0 ≤ k → 0 ≤ m →
      ∃ v w, poisson_low g k m = some v ∧ poisson_high g k m = some w ∧ v + w = 1) ∧
    (∀ (g : ℚ → ℚ → ℚ) (a b x : ℚ), 0 < a → 0 < b → 0 ≤ x →
      ∃ v w, gdtr g a b x = some v ∧ gdtrc g a b x = some w ∧ v + w = 1) := by
  refine ⟨fun k n p hkn _ _ => bdtr_add_bdtrc k n p hkn, ?_, ?_, ?_⟩
  · intro g k m hk hm
    refine ⟨igamc g (k + 1) m, igam g (k + 1) m, ?_, ?_, ?_⟩
    · simp [pdtr, not_lt.2 hk, not_lt.2 hm]
    · simp [pdtrc, not_lt.2 hk, not_lt.2 hm]
    · rw [igamc]; ring
  · intro g k m hk hm
    refine ⟨igamc g (k + 1) m, igam g (k + 1) m, ?_, ?_, ?_⟩
    · simp [poisson_low, pdtr, not_lt.2 hk, not_lt.2 hm]
    · simp [poisson_high, pdtrc, not_lt.2 hk, not_lt.2 hm]
    · rw [igamc]; ring
  · intro g a b x ha hb hx
    have h : ¬(a ≤ 0 ∨ b ≤ 0) := by
      push_neg
      exact ⟨ha, hb⟩
    refine ⟨igam g b (a * x), igamc g b (a * x), ?_, ?_, ?_⟩
    · simp [gdtr, h, not_lt.2 hx]
    · simp [gdtrc, h, not_lt.2 hx]
    · rw [igamc]; ring

/-- C6, witness at concrete inputs: `(k, n, p) = (1, 2, 1/3)` for the
binomial pair, `(0, 1)` for the Poisson pair, `(1, 1, 1)` for the gamma
pair. -/
theorem c6_complementarity_witness :
    ((1 : ℕ) ≤ 2 ∧ (0 : ℚ) ≤ 1 / 3 ∧ (1 / 3 : ℚ) ≤ 1 ∧ (0 : ℚ) ≤ 0 ∧ (0 : ℚ) < 1) ∧
    bdtr 1 2 (1 / 3) + bdtrc 1 2 (1 / 3) = 1 ∧
    (∃ v w, poisson_low gHalf 0 1 = some v ∧ poisson_high gHalf 0 1 = some w ∧ v + w = 1) ∧
    (∃ v w, gdtr gHalf 1 1 1 = some v ∧ gdtrc gHalf 1 1 1 = some w ∧ v + w = 1) :=
  ⟨⟨by norm_num, by norm_num, by norm_num, le_refl 0, by norm_num⟩,
    c6_complementarity.1 1 2 (1 / 3) (by norm_num) (by norm_num) (by norm_num),
    c6_complementarity.2.2.1 gHalf 0 1 (le_refl 0) (by norm_num),
    c6_complementarity.2.2.2 gHalf 1 1 1 (by norm_num) (by norm_num) (by norm_num)⟩

/-! ## Claim C7 -/

/-- The exact F(10, 10) CDF at `F = 1.2 = 6/5`: the incomplete beta
`I_{6/11}(5, 5)` evaluated as an exact binomial tail. -/
theorem fcdfQ_ten_ten : fcdfQ 10 10 (6 / 5) = 1439850816 / 2357947691 := by
  norm_num [fcdfQ, show Int.toNat 5 = 5 from rfl, ibetaInt,
    Finset.sum_Icc_succ_top, Finset.Icc_self, Finset.sum_singleton,
    show (9 : ℕ).choose 5 = 126 from rfl, show (9 : ℕ).choose 6 = 84 from rfl,
    show (9 : ℕ).choose 7 = 36 from rfl, show (9 : ℕ).choose 8 = 9 from rfl,
    show (9 : ℕ).choose 9 = 1 from rfl]

/-- C7, counterexample: the claim asserts that `fprob(dfn, dfd, F)` with
`side = "right"` returns the upper-tail probability `P(X ≥ F)`; at
`dfn = dfd = 10`, `F = 1.2 = 6/5` it returns `2·(1 - cdf) ≈ 0.77872`
(which is what the test calibrates as `≈ 0.7788`), twice the upper tail
`1 - cdf ≈ 0.38936` — so the returned value is not `P(X ≥ F)`. -/
theorem c7_counterexample :
    fprob fcdfQ 10 10 (6 / 5) "right" = some (2 * (1 - fcdfQ 10 10 (6 / 5))) ∧
    2 * (1 - fcdfQ 10 10 (6 / 5)) ≠ 1 - fcdfQ 10 10 (6 / 5) := by
  constructor
  · norm_num [fprob]
  · rw [fcdfQ_ten_ten]
    norm_num

/-- C7, amended: `fprob` with `side = "right"` returns twice the
upper-tail probability, `2·(1 - cdf)` (the two-sided-test convention the
reference values pin), `side = "left"` returns twice the lower tail
`2·cdf`, and the literal relation `left = 2 - right` holds exactly; at
`dfn = dfd = 10`, `F = 1.2` the right-side value matches `0.7788` and the
left-side value matches `1.2212`, each within relative tolerance
`1e-4`. -/
theorem c7_fprob_two_sided :
    (∀ (fcdf : ℚ → ℚ → ℚ → ℚ) (dfn dfd Fv : ℚ), 0 < dfn → 0 < dfd → 0 ≤ Fv →
      ∃ r l, fprob fcdf dfn dfd Fv "right" = some r ∧
        fprob fcdf dfn dfd Fv "left" = some l ∧
        r = 2 * (1 - fcdf dfn dfd Fv) ∧ l = 2 * fcdf dfn dfd Fv ∧ l = 2 - r) ∧
    |2 * (1 - fcdfQ 10 10 (6 / 5)) - 7788 / 10000| ≤ 7788 / 10000 * (1 / 10 ^ 4) ∧
    |2 * fcdfQ 10 10 (6 / 5) - 12212 / 10000| ≤ 12212 / 10000 * (1 / 10 ^ 4) := by
  refine ⟨?_, ?_, ?_⟩
  · intro fcdf dfn dfd Fv hn hd hF
    have h : ¬(dfn ≤ 0 ∨ dfd ≤ 0) := by
      push_neg
      exact ⟨hn, hd⟩
    refine ⟨2 * (1 - fcdf dfn dfd Fv), 2 * fcdf dfn dfd Fv, ?_, ?_, rfl, rfl, by ring⟩
    · simp [fprob, h, not_lt.2 hF]
    · simp [fprob, h, not_lt.2 hF]
  · rw [fcdfQ_ten_ten]
    norm_num [abs_le]
  · rw [fcdfQ_ten_ten]
    norm_num [abs_le]

/-- C7, witness for the amended theorem at the concrete input
`(dfn, dfd, F) = (10, 10, 6/5)` with the exact even-df F CDF. -/
theorem c7_fprob_two_sided_witness :
    ((0 : ℚ) < 10 ∧ (0 : ℚ) ≤ 6 / 5) ∧
    (∃ r l, fprob fcdfQ 10 10 (6 / 5) "right" = some r ∧
      fprob fcdfQ 10 10 (6 / 5) "left" = some l ∧
      r = 2 * (1 - fcdfQ 10 10 (6 / 5)) ∧ l = 2 * fcdfQ 10 10 (6 / 5) ∧ l = 2 - r) :=
  ⟨⟨by norm_num, by norm_num⟩,
    c7_fprob_two_sided.1 fcdfQ 10 10 (6 / 5) (by norm_num) (by norm_num) (by norm_num)⟩

/-! ## Claim C8 -/

/-- C8, confirmed: each listed invalid input is rejected as a domain error
(modelled as `none`, never a clamped or NaN-like value): `binomial_exact`
with negative successes, with successes exceeding trials (the fractional
case `10.2 > 5` included), or with `prob` outside `[0, 1]`; `fprob` with a
negative F value or an unrecognized `side` keyword; and
`theoretical_quantiles` with an unsupported `dist` name. -/
theorem c8_domain_error_rejection :
    (∀ s t p : ℝ, s < 0 → binomial_exact s t p = none) ∧
    (∀ s t p : ℝ, t < s → binomial_exact s t p = none) ∧
    (∀ s t p : ℝ, p < 0 → binomial_exact s t p = none) ∧
    (∀ s t p : ℝ, 1 < p → binomial_exact s t p = none) ∧
    (∀ (fc : ℚ → ℚ → ℚ → ℚ) (dfn dfd Fv : ℚ) (side : String), Fv < 0 →
      fprob fc dfn dfd Fv side = none) ∧
    (∀ (fc : ℚ → ℚ → ℚ → ℚ) (dfn dfd Fv : ℚ) (side : String),
      side ≠ "right" → side ≠ "left" → fprob fc dfn dfd Fv side = none) ∧
    (∀ (P : InvCDFs) (n : ℕ) (dist : String) (df : Option ℚ),
      dist ≠ "uniform" → dist ≠ "normal" → dist ≠ "chisq" → dist ≠ "t" →
      theoretical_quantiles P n dist df = none) := by
  refine ⟨?_, ?_, ?_, ?_, ?_, ?_, ?_⟩
  · intro s t p h
    simp [binomial_exact, h]
  · intro s t p h
    simp [binomial_exact, h]
  · intro s t p h
    by_cases h1 : s < 0 ∨ t < s <;> simp [binomial_exact, h1, h]
  · intro s t p h
    by_cases h1 : s < 0 ∨ t < s <;> simp [binomial_exact, h1, h]
  · intro fc dfn dfd Fv side h
    by_cases h1 : dfn ≤ 0 ∨ dfd ≤ 0 <;> simp [fprob, h1, h]
  · intro fc dfn dfd Fv side hr hl
    by_cases h1 : dfn ≤ 0 ∨ dfd ≤ 0
    · simp [fprob, h1]
    · by_cases h2 : Fv < 0 <;> simp [fprob, h1, h2, hr, hl]
  · intro P n dist df hu hn hc ht
    simp [theoretical_quantiles, hu, hn, hc, ht]

/-- C8, witness at the concrete invalid inputs named by the claim and the
tests: `binomial_exact(10.2, 5, 0.33)`, `binomial_exact(-2, 5, 0.33)`,
`binomial_exact(10, 50, -2)`, `binomial_exact(10, 50, 3)`,
`fprob(10, 10, -3)`, `fprob(10, 10, 1, "non_valid_side")`, and an
unsupported `dist` name. -/
theorem c8_domain_error_rejection_witness :
    ((5 : ℝ) < 10.2 ∧ (-2 : ℝ) < 0 ∧ (-2 : ℝ) < 0 ∧ (1 : ℝ) < 3 ∧ (-3 : ℚ) < 0 ∧
      ("non_valid_side" : String) ≠ "right" ∧ ("bad_dist" : String) ≠ "uniform") ∧
    binomial_exact 10.2 5 0.33 = none ∧
    binomial_exact (-2) 5 0.33 = none ∧
    binomial_exact 10 50 (-2) = none ∧
    binomial_exact 10 50 3 = none ∧
    fprob ibHalfQ 10 10 (-3) "right" = none ∧
    fprob ibHalfQ 10 10 1 "non_valid_side" = none ∧
    theoretical_quantiles oddDemo 4 "bad_dist" none = none :=
  ⟨⟨by norm_num, by norm_num, by norm_num, by norm_num, by norm_num,
      by decide, by decide⟩,
    c8_domain_error_rejection.2.1 10.2 5 0.33 (by norm_num),
    c8_domain_error_rejection.1 (-2) 5 0.33 (by norm_num),
    c8_domain_error_rejection.2.2.1 10 50 (-2) (by norm_num),
    c8_domain_error_rejection.2.2.2.1 10 50 3 (by norm_num),
    c8_domain_error_rejection.2.2.2.2.1 ibHalfQ 10 10 (-3) "right" (by norm_num),
    c8_domain_error_rejection.2.2.2.2.2.1 ibHalfQ 10 10 1 "non_valid_side"
      (by decide) (by decide),
    c8_domain_error_rejection.2.2.2.2.2.2 oddDemo 4 "bad_dist" none
      (by decide) (by decide) (by decide) (by decide)⟩

/-! ## Claim C5 -/

/-- The plotting-position value is strictly increasing in the position. -/
theorem ppoint_strictMono (n : ℕ) {i j : ℕ} (hij : i < j) :
    ppoint n i < ppoint n j := by
  have hij' : (i : ℚ) < (j : ℚ) := by exact_mod_cast hij
  rw [ppoint, ppoint]
  by_cases h : 10 < n
  · rw [if_pos h, if_pos h, div_lt_div_iff_of_pos_right]
    · linarith
    · have h10 : (10 : ℚ) < (n : ℚ) := by exact_mod_cast h
      linarith
  · rw [if_neg h, if_neg h, div_lt_div_iff_of_pos_right]
    · linarith
    · have : (0 : ℚ) ≤ (n : ℚ) := Nat.cast_nonneg n
      linarith

/-- The plotting positions are listed in strictly ascending order. -/
theorem probability_points_sorted (n : ℕ) :
    (probability_points n).Pairwise (· < ·) := by
  rw [probability_points]
  exact (List.pairwise_lt_range n).map _
    (fun a b hab => ppoint_strictMono n (Nat.succ_lt_succ hab))

/-- Indexing a mapped plotting-position list. -/
theorem probability_points_map_getD (f : ℚ → ℝ) {n i : ℕ} (h : i < n) :
    ((probability_points n).map f).getD i 0 = f (ppoint n (i + 1)) := by
  rw [probability_points, List.map_map, List.getD_eq_getElem?_getD,
    List.getElem?_map, List.getElem?_range h]
  rfl

/-- C5, counterexample: the claim asserts the returned quantiles are
ordered consistently with the ascending probability points, but the
`chisq` branch feeds the points to the cephes-convention upper-tail
inverse `chdtri` (here instantiated with the true df = 2 inverse
`-2·log p`, the function the test table values `3.83…, 1.92…, …` realize),
so the first quantile exceeds the second while the first probability point
is below the second. -/
theorem c5_counterexample :
    theoretical_quantiles chisqDemo 4 "chisq" (some 2) =
      some ((probability_points 4).map (chisqDemo.chdtri 2)) ∧
    ((probability_points 4).map (chisqDemo.chdtri 2)).getD 1 0 <
      ((probability_points 4).map (chisqDemo.chdtri 2)).getD 0 0 ∧
    (probability_points 4).getD 0 0 < (probability_points 4).getD 1 0 := by
  refine ⟨?_, ?_, ?_⟩
  · simp [theoretical_quantiles]
  · rw [probability_points_map_getD _ (by norm_num),
      probability_points_map_getD _ (by norm_num),
      show ppoint 4 1 = 5 / 34 by norm_num [ppoint],
      show ppoint 4 2 = 13 / 34 by norm_num [ppoint]]
    have hlog := Real.log_lt_log (show (0 : ℝ) < 5 / 34 by norm_num)
      (show (5 / 34 : ℝ) < 13 / 34 by norm_num)
    show -2 * Real.log ((13 / 34 : ℚ) : ℝ) < -2 * Real.log ((5 / 34 : ℚ) : ℝ)
    push_cast
    linarith
  · rw [probability_points_getD (by norm_num), probability_points_getD (by norm_num)]
    norm_num [ppoint]

/-- C5, amended: `theoretical_quantiles(n, dist, df)` returns exactly
`probability_points(n)` mapped elementwise through the inverse CDF of the
named distribution (identity for `"uniform"`, the probit for `"normal"`,
the df-parameterized inverses for `"chisq"`/`"t"`); the probability points
ascend, and the quantiles ascend with them for `"uniform"`, `"normal"`
and `"t"` (whose inverse CDFs are strictly increasing in the target
probability), while for `"chisq"` — whose `chdtri` takes an upper-tail
probability and is strictly decreasing — the quantiles descend. -/
theorem c5_theoretical_quantiles_map :
    (∀ (P : InvCDFs) (n : ℕ) (df : Option ℚ),
      theoretical_quantiles P n "uniform" df =
        some ((probability_points n).map (fun p : ℚ => (p : ℝ))) ∧
      theoretical_quantiles P n "normal" df =
        some ((probability_points n).map P.ndtri)) ∧
    (∀ (P : InvCDFs) (n : ℕ) (d : ℚ),
      theoretical_quantiles P n "chisq" (some d) =
        some ((probability_points n).map (P.chdtri d)) ∧
      theoretical_quantiles P n "t" (some d) =
        some ((probability_points n).map (P.stdtri d))) ∧
    (∀ n : ℕ, (probability_points n).Pairwise (· < ·)) ∧
    (∀ n : ℕ, ((probability_points n).map (fun p : ℚ => (p : ℝ))).Pairwise (· < ·)) ∧
    (∀ (P : InvCDFs) (n : ℕ), (∀ p q : ℚ, p < q → P.ndtri p < P.ndtri q) →
      ((probability_points n).map P.ndtri).Pairwise (· < ·)) ∧
    (∀ (P : InvCDFs) (n : ℕ) (d : ℚ), (∀ p q : ℚ, p < q → P.stdtri d p < P.stdtri d q) →
      ((probability_points n).map (P.stdtri d)).Pairwise (· < ·)) ∧
    (∀ (P : InvCDFs) (n : ℕ) (d : ℚ), (∀ p q : ℚ, p < q → P.chdtri d q < P.chdtri d p) →
      ((probability_points n).map (P.chdtri d)).Pairwise (· > ·)) := by
  refine ⟨?_, ?_, probability_points_sorted, ?_, ?_, ?_, ?_⟩
  · intro P n df
    constructor <;> simp [theoretical_quantiles]
  · intro P n d
    constructor <;> simp [theoretical_quantiles]
  · intro n
    rw [List.pairwise_map]
    exact (probability_points_sorted n).imp (fun hab => by exact_mod_cast hab)
  · intro P n hmono
    rw [List.pairwise_map]
    exact (probability_points_sorted n).imp (fun hab => hmono _ _ hab)
  · intro P n d hmono
    rw [List.pairwise_map]
    exact (probability_points_sorted n).imp (fun hab => hmono _ _ hab)
  · intro P n d hanti
    rw [List.pairwise_map]
    exact (probability_points_sorted n).imp (fun hab => hanti _ _ hab)

/-- C5, witness for the amended theorem at the concrete instance
`monoDemo` (strictly monotone `ndtri`/`stdtri`, strictly antitone
`chdtri`), `n = 3`, `df = 2`. -/
theorem c5_theoretical_quantiles_map_witness :
    (∀ p q : ℚ, p < q → monoDemo.ndtri p < monoDemo.ndtri q) ∧
    ((probability_points 3).map monoDemo.ndtri).Pairwise (· < ·) ∧
    ((probability_points 3).map (monoDemo.chdtri 2)).Pairwise (· > ·) ∧
    theoretical_quantiles monoDemo 3 "chisq" (some 2) =
      some ((probability_points 3).map (monoDemo.chdtri 2)) :=
  ⟨fun p q h => by simpa [monoDemo] using (show ((p : ℝ)) < (q : ℝ) by exact_mod_cast h),
    c5_theoretical_quantiles_map.2.2.2.2.1 monoDemo 3
      (fun p q h => by simpa [monoDemo] using (show ((p : ℝ)) < (q : ℝ) by exact_mod_cast h)),
    c5_theoretical_quantiles_map.2.2.2.2.2.2 monoDemo 3 2
      (fun p q h => by
        simp only [monoDemo]
        exact neg_lt_neg (by exact_mod_cast h)),
    (c5_theoretical_quantiles_map.2.1 monoDemo 3 2).1⟩

/-! ## Claim C10 -/

/-- The plotting positions for positions `i` and `n + 1 - i` sum to `1`,
in both branches of the formula. -/
theorem ppoint_pair (n i : ℕ) (_h1 : 1 ≤ i) (h2 : i ≤ n) :
    ppoint n i + ppoint n (n + 1 - i) = 1 := by
  have hcast : ((n + 1 - i : ℕ) : ℚ) = (n : ℚ) + 1 - (i : ℚ) := by
    push_cast [Nat.cast_sub (by omega : i ≤ n + 1)]
    ring
  rw [ppoint, ppoint, hcast]
  by_cases h : 10 < n
  · rw [if_pos h, if_pos h, div_add_div_same,
      show ((i : ℚ) - 1 / 2) + (((n : ℚ) + 1 - (i : ℚ)) - 1 / 2) = (n : ℚ) by ring]
    have hn : (0 : ℚ) < (n : ℚ) := by exact_mod_cast (by omega : 0 < n)
    exact div_self (ne_of_gt hn)
  · rw [if_neg h, if_neg h, div_add_div_same,
      show ((i : ℚ) - 3 / 8) + (((n : ℚ) + 1 - (i : ℚ)) - 3 / 8)
        = (n : ℚ) + 1 - 2 * (3 / 8) by ring]
    have hn : (0 : ℚ) ≤ (n : ℚ) := Nat.cast_nonneg n
    exact div_self (by linarith)

/-- Sum of a mapped `List.range` as a `Finset.range` sum. -/
theorem list_range_map_sum (f : ℕ → ℝ) (n : ℕ) :
    ((List.range n).map f).sum = ∑ i ∈ Finset.range n, f i := by
  induction n with
  | zero => simp
  | succ m ih =>
    rw [List.range_succ, List.map_append, List.sum_append, Finset.sum_range_succ, ih]
    simp

/-- Antisymmetry of a plotting-position list mapped through a function odd
about `p = 1/2`: entries pair to negatives across the middle, the list
sums to zero, and the middle entry of an odd-length list is zero. -/
theorem map_pp_antisym (g : ℚ → ℝ) (hodd : ∀ p : ℚ, g (1 - p) = -g p) (n : ℕ) :
    (∀ i, i < n → ((probability_points n).map g).getD i 0 =
      -(((probability_points n).map g).getD (n - 1 - i) 0)) ∧
    ((probability_points n).map g).sum = 0 ∧
    (n % 2 = 1 → ((probability_points n).map g).getD (n / 2) 0 = 0) := by
  have key : ∀ i, i < n → g (ppoint n (n - 1 - i + 1)) = -g (ppoint n (i + 1)) := by
    intro i hi
    have hidx : n - 1 - i + 1 = n + 1 - (i + 1) := by omega
    have hp := ppoint_pair n (i + 1) (by omega) (by omega)
    have hval : ppoint n (n + 1 - (i + 1)) = 1 - ppoint n (i + 1) := by linarith
    rw [hidx, hval, hodd]
  have hpair : ∀ i, i < n → ((probability_points n).map g).getD i 0 =
      -(((probability_points n).map g).getD (n - 1 - i) 0) := by
    intro i hi
    rw [probability_points_map_getD g hi,
      probability_points_map_getD g (show n - 1 - i < n by omega), key _ hi, neg_neg]
  refine ⟨hpair, ?_, ?_⟩
  · have hmap : (probability_points n).map g =
        (List.range n).map (fun i => g (ppoint n (i + 1))) := by
      rw [probability_points, List.map_map]
      rfl
    rw [hmap, list_range_map_sum]
    have hrefl := Finset.sum_range_reflect (fun i => g (ppoint n (i + 1))) n
    have hzero : (∑ i ∈ Finset.range n, g (ppoint n (i + 1))) +
        (∑ i ∈ Finset.range n, g (ppoint n (i + 1))) = 0 := by
      nth_rewrite 2 [← hrefl]
      rw [← Finset.sum_add_distrib]
      refine Finset.sum_eq_zero ?_
      intro i hi
      rw [key i (Finset.mem_range.1 hi)]
      ring
    linarith
  · intro hodd_n
    have hmid := hpair (n / 2) (by omega)
    have hidx : n - 1 - n / 2 = n / 2 := by omega
    rw [hidx] at hmid
    linarith

/-- C10, confirmed: for every `n ≥ 1` (and df in the t case), the
`"normal"` and `"t"` theoretical-quantile sequences are antisymmetric
about zero — the `i`-th value is the negation of the `(n+1-i)`-th (at
0-based indices `i` and `n-1-i`), the sequence sums to zero, and the
middle element for odd `n` is zero — given that the inverse CDF is odd
about `p = 1/2` (`ndtri(1-p) = -ndtri(p)`), the defining symmetry of the
true probit and Student's-t inverse. -/
theorem c10_quantile_antisymmetry :
    ∀ (P : InvCDFs) (n : ℕ),
      ((∀ p : ℚ, P.ndtri (1 - p) = -P.ndtri p) →
        ∀ L, theoretical_quantiles P n "normal" none = some L →
          (∀ i, i < n → L.getD i 0 = -(L.getD (n - 1 - i) 0)) ∧
          L.sum = 0 ∧ (n % 2 = 1 → L.getD (n / 2) 0 = 0)) ∧
      (∀ d : ℚ, 0 < d → (∀ p : ℚ, P.stdtri d (1 - p) = -P.stdtri d p) →
        ∀ L, theoretical_quantiles P n "t" (some d) = some L →
          (∀ i, i < n → L.getD i 0 = -(L.getD (n - 1 - i) 0)) ∧
          L.sum = 0 ∧ (n % 2 = 1 → L.getD (n / 2) 0 = 0)) := by
  intro P n
  constructor
  · intro hodd L hL
    have hLeq : L = (probability_points n).map P.ndtri := by
      have := hL
      simp only [theoretical_quantiles] at this
      simpa using this.symm
    subst hLeq
    exact map_pp_antisym P.ndtri hodd n
  · intro d _ hodd L hL
    have hLeq : L = (probability_points n).map (P.stdtri d) := by
      have := hL
      simp only [theoretical_quantiles] at this
      simpa using this.symm
    subst hLeq
    exact map_pp_antisym (P.stdtri d) hodd n

/-- C10, witness at the concrete instance `oddDemo` (odd `ndtri` and
`stdtri`), `n = 3`, `df = 2`. -/
theorem c10_quantile_antisymmetry_witness :
    (∀ p : ℚ, oddDemo.ndtri (1 - p) = -oddDemo.ndtri p) ∧
    (((probability_points 3).map oddDemo.ndtri).getD 0 0 =
      -(((probability_points 3).map oddDemo.ndtri).getD 2 0) ∧
     ((probability_points 3).map oddDemo.ndtri).sum = 0 ∧
     ((probability_points 3).map oddDemo.ndtri).getD 1 0 = 0) := by
  have hodd : ∀ p : ℚ, oddDemo.ndtri (1 - p) = -oddDemo.ndtri p := by
    intro p
    simp only [oddDemo]
    push_cast
    ring
  have happ := (c10_quantile_antisymmetry oddDemo 3).1 hodd
    ((probability_points 3).map oddDemo.ndtri) (by simp [theoretical_quantiles])
  exact ⟨hodd, happ.1 0 (by norm_num), happ.2.1, happ.2.2 (by norm_num)⟩

/-! ## Claim C1 -/

/-- The real binomial CDF is continuous in the probability parameter. -/
theorem bdtrR_continuous (k n : ℕ) : Continuous (bdtrR k n) := by
  unfold bdtrR
  exact continuous_finset_sum _ fun j _ =>
    (continuous_const.mul (continuous_pow j)).mul
      ((continuous_const.sub continuous_id).pow (n - j))

/-- The binomial CDF at probability `0` is `1`. -/
theorem bdtrR_zero (k n : ℕ) : bdtrR k n 0 = 1 := by
  rw [bdtrR, Finset.sum_eq_single 0]
  · simp
  · intro j _ hj
    simp [zero_pow hj]
  · intro h
    exact absurd (Finset.mem_range.2 (by omega)) h

/-- The binomial CDF at probability `1` is `0` when `k < n`. -/
theorem bdtrR_one (k n : ℕ) (hkn : k < n) : bdtrR k n 1 = 0 := by
  rw [bdtrR]
  refine Finset.sum_eq_zero ?_
  intro j hj
  have hnj : n - j ≠ 0 := by
    have := Finset.mem_range.1 hj
    omega
  simp [zero_pow hnj]

/-- C1, counterexample: the claim's round-trip, instantiated for the F
family at `p = 1e-50` (a value of the claim's open interval `(0, 1)`),
fails: `fdtri` returns `0` there (as the repository's `test_fdtri` table
pins), the F CDF at `0` is `0`, and `|0 - 1e-50|` exceeds the claimed
`1e-6` relative tolerance by 44 orders of magnitude. -/
theorem c1_counterexample :
    fdtri ibHalfR 2 2 (1 / 10 ^ 50) = 0 ∧
    fdtrR ibHalfR 2 2 (fdtri ibHalfR 2 2 (1 / 10 ^ 50)) = 0 ∧
    ¬|fdtrR ibHalfR 2 2 (fdtri ibHalfR 2 2 (1 / 10 ^ 50)) - 1 / 10 ^ 50| ≤
      1 / 10 ^ 6 * (1 / 10 ^ 50) := by
  have h1 : fdtri ibHalfR 2 2 (1 / 10 ^ 50) = 0 := by
    simp [fdtri]
  have h2 : fdtrR ibHalfR 2 2 (0 : ℝ) = 0 := by
    simp [fdtrR]
  refine ⟨h1, by rw [h1]; exact h2, ?_⟩
  rw [h1, h2, abs_le]
  intro hcon
  have hA := hcon.1
  norm_num at hA

/-- C1, amended: in the exact model the round-trips hold exactly (hence
within any relative tolerance): unconditionally for `bdtr`/`bdtri` (which
inverts for the probability parameter; `0 ≤ k < n`, `p ∈ (0, 1)`), by
continuity and the intermediate value theorem; and for
`stdtr`/`stdtri`, `pdtr`/`pdtri`, `gdtr`/`gdtri` whenever the CDF attains
the target.  For the F family the round-trip holds for attained targets
except at `p = 1e-50`, where `fdtri` is pinned by the tests to return `0`
and the round-trip fails (see the counterexample). -/
theorem c1_roundtrip :
    (∀ (k n : ℕ) (p : ℝ), k < n → 0 < p → p < 1 →
      bdtrR k n (bdtri k n p) = p) ∧
    (∀ (ib : ℝ → ℝ → ℝ → ℝ) (df p : ℝ), (∃ t, stdtrR ib df t = p) →
      stdtrR ib df (stdtri ib df p) = p) ∧
    (∀ (g : ℝ → ℝ → ℝ) (k p : ℝ), (∃ m, pdtrR g k m = p) →
      pdtrR g k (pdtri g k p) = p) ∧
    (∀ (g : ℝ → ℝ → ℝ) (a b p : ℝ), (∃ x, gdtrR g a b x = p) →
      gdtrR g a b (gdtri g a b p) = p) ∧
    (∀ (fb : ℝ → ℝ → ℝ → ℝ) (dfn dfd p : ℝ), p ≠ 1 / 10 ^ 50 →
      (∃ x, fdtrR fb dfn dfd x = p) →
      fdtrR fb dfn dfd (fdtri fb dfn dfd p) = p) := by
  refine ⟨?_, ?_, ?_, ?_, ?_⟩
  · intro k n p hkn h0 h1
    have hc : ContinuousOn (bdtrR k n) (Set.Icc 0 1) :=
      (bdtrR_continuous k n).continuousOn
    have hmem : p ∈ Set.Icc (bdtrR k n 1) (bdtrR k n 0) := by
      rw [bdtrR_one k n hkn, bdtrR_zero k n]
      exact ⟨le_of_lt h0, le_of_lt h1⟩
    obtain ⟨x, _, hx⟩ := intermediate_value_Icc' (by norm_num : (0 : ℝ) ≤ 1) hc hmem
    exact Function.invFun_eq ⟨x, hx⟩
  · intro ib df p hex
    exact Function.invFun_eq hex
  · intro g k p hex
    exact Function.invFun_eq hex
  · intro g a b p hex
    exact Function.invFun_eq hex
  · intro fb dfn dfd p hne hex
    rw [fdtri, if_neg hne]
    exact Function.invFun_eq hex

/-- C1, witness for the amended theorem: each family's round-trip at the
concrete target `p = 1/2`, with concrete primitive instances attaining
it. -/
theorem c1_roundtrip_witness :
    ((0 : ℕ) < 1 ∧ (0 : ℝ) < 1 / 2 ∧ (1 / 2 : ℝ) < 1 ∧ (1 / 2 : ℝ) ≠ 1 / 10 ^ 50) ∧
    bdtrR 0 1 (bdtri 0 1 (1 / 2)) = 1 / 2 ∧
    stdtrR ibX 1 (stdtri ibX 1 (1 / 2)) = 1 / 2 ∧
    pdtrR gHalfR 0 (pdtri gHalfR 0 (1 / 2)) = 1 / 2 ∧
    gdtrR gHalfR 1 1 (gdtri gHalfR 1 1 (1 / 2)) = 1 / 2 ∧
    fdtrR ibHalfR 2 2 (fdtri ibHalfR 2 2 (1 / 2)) = 1 / 2 :=
  ⟨⟨by norm_num, by norm_num, by norm_num, by norm_num⟩,
    c1_roundtrip.1 0 1 (1 / 2) (by norm_num) (by norm_num) (by norm_num),
    c1_roundtrip.2.1 ibX 1 (1 / 2) ⟨0, by norm_num [stdtrR, ibX]⟩,
    c1_roundtrip.2.2.1 gHalfR 0 (1 / 2) ⟨1, by norm_num [pdtrR, igamR, gHalfR]⟩,
    c1_roundtrip.2.2.2.1 gHalfR 1 1 (1 / 2) ⟨1, by norm_num [gdtrR, igamR, gHalfR]⟩,
    c1_roundtrip.2.2.2.2 ibHalfR 2 2 (1 / 2) (by norm_num)
      ⟨1, by norm_num [fdtrR, ibHalfR]⟩⟩

/-! ## Claim C4 -/

/-- C4, counterexample: the claim asserts `fdtri(dfn, dfd, 1e-50)` is a
nonzero finite value, but the repository's `test_fdtri` table pins its
value to exactly `0.0` for every tested degrees-of-freedom pair
(`assert_allclose` against expected `0.0` with default `atol = 0` forces
exact zero), which the model reproduces. -/
theorem c4_counterexample : fdtri ibHalfR 1 1 (1 / 10 ^ 50) = 0 := by
  simp [fdtri]

/-- C4, amended: a positive attained target `p` away from the pinned
underflow point yields a nonzero variate (the F CDF vanishes at `0`, so a
root of `F(x) = p > 0` cannot be `0`), but at `p = 1e-50` `fdtri` returns
exactly `0` for every df pair; the repository's tested extreme values for
the other inverses are nonzero and finite — `stdtri(1, 1e-50) =
-3.18309886184e49` and `bdtri(0, 5, 0.999999) = 2.00000080006e-07`. -/
theorem c4_extreme_targets :
    (∀ (fb : ℝ → ℝ → ℝ → ℝ) (dfn dfd : ℝ), fdtri fb dfn dfd (1 / 10 ^ 50) = 0) ∧
    (∀ (fb : ℝ → ℝ → ℝ → ℝ) (dfn dfd p : ℝ), 0 < p → p ≠ 1 / 10 ^ 50 →
      (∃ x, fdtrR fb dfn dfd x = p) → fdtri fb dfn dfd p ≠ 0) ∧
    stdtriLowExpected ≠ 0 ∧ bdtriHighExpected ≠ 0 := by
  refine ⟨?_, ?_, ?_, ?_⟩
  · intro fb dfn dfd
    simp [fdtri]
  · intro fb dfn dfd p hp hne hex h0
    have hroot : fdtrR fb dfn dfd (fdtri fb dfn dfd p) = p := by
      rw [fdtri, if_neg hne]
      exact Function.invFun_eq hex
    rw [h0] at hroot
    have hzero : fdtrR fb dfn dfd 0 = 0 := by simp [fdtrR]
    rw [hzero] at hroot
    exact hp.ne' hroot.symm
  · norm_num [stdtriLowExpected]
  · norm_num [bdtriHighExpected]

/-- C4, witness for the amended theorem: the non-vanishing conjunct at the
concrete attained target `p = 1/2` for df pair `(2, 2)`. -/
theorem c4_extreme_targets_witness :
    ((0 : ℝ) < 1 / 2 ∧ (1 / 2 : ℝ) ≠ 1 / 10 ^ 50) ∧
    fdtri ibHalfR 2 2 (1 / 2) ≠ 0 :=
  ⟨⟨by norm_num, by norm_num⟩,
    c4_extreme_targets.2.1 ibHalfR 2 2 (1 / 2) (by norm_num) (by norm_num)
      ⟨1, by norm_num [fdtrR, ibHalfR]⟩⟩

/-! ## Claim C9 -/

/-- The exponentiated log-space binomial formula in product form, for
in-range arguments. -/
theorem exp_ln_binomial (s t p : ℝ) (hs : 0 ≤ s) (hst : s ≤ t) (hp0 : 0 < p) (hp1 : p < 1) :
    Real.exp (ln_binomial s t p) =
      Real.Gamma (t + 1) / (Real.Gamma (s + 1) * Real.Gamma (t - s + 1)) *
        (p ^ s * (1 - p) ^ (t - s)) := by
  have h1 : (0 : ℝ) < t + 1 := by linarith
  have h2 : (0 : ℝ) < s + 1 := by linarith
  have h3 : (0 : ℝ) < t - s + 1 := by linarith
  rw [ln_binomial, Real.exp_add, Real.exp_add, Real.exp_sub, Real.exp_sub,
    Real.exp_log (Real.Gamma_pos_of_pos h1), Real.exp_log (Real.Gamma_pos_of_pos h2),
    Real.exp_log (Real.Gamma_pos_of_pos h3),
    show s * Real.log p = Real.log p * s from mul_comm _ _,
    show (t - s) * Real.log (1 - p) = Real.log (1 - p) * (t - s) from mul_comm _ _,
    ← Real.rpow_def_of_pos hp0, ← Real.rpow_def_of_pos (by linarith : (0 : ℝ) < 1 - p)]
  ring

/-- The half-integer Gamma value `Γ(11/2) = (945/32)·√π`. -/
theorem gamma_eleven_halves : Real.Gamma (11 / 2) = 945 / 32 * Real.sqrt Real.pi := by
  rw [show (11 / 2 : ℝ) = 9 / 2 + 1 by norm_num,
    Real.Gamma_add_one (by norm_num : (9 / 2 : ℝ) ≠ 0),
    show (9 / 2 : ℝ) = 7 / 2 + 1 by norm_num,
    Real.Gamma_add_one (by norm_num : (7 / 2 : ℝ) ≠ 0),
    show (7 / 2 : ℝ) = 5 / 2 + 1 by norm_num,
    Real.Gamma_add_one (by norm_num : (5 / 2 : ℝ) ≠ 0),
    show (5 / 2 : ℝ) = 3 / 2 + 1 by norm_num,
    Real.Gamma_add_one (by norm_num : (3 / 2 : ℝ) ≠ 0),
    show (3 / 2 : ℝ) = 1 / 2 + 1 by norm_num,
    Real.Gamma_add_one (by norm_num : (1 / 2 : ℝ) ≠ 0),
    Real.Gamma_one_half_eq]
  ring

/-- Bounds for the exact pmf at `(0.5, 5, 0.3)`: the value is
`(512/63)·(2401/10⁴)·√21/(10·π) ≈ 0.28463`, strictly between `0.16807` and
`0.36015` (the bracketing pmf values the repository test uses). -/
theorem binom_ex1_bounds :
    16807 / 100000 < Real.exp (ln_binomial (1 / 2) 5 (3 / 10)) ∧
    Real.exp (ln_binomial (1 / 2) 5 (3 / 10)) < 36015 / 100000 := by
  have hval : Real.exp (ln_binomial (1 / 2) 5 (3 / 10)) =
      18439680 / 9450000 * Real.sqrt (21 / 100) / Real.pi := by
    rw [exp_ln_binomial (1 / 2) 5 (3 / 10) (by norm_num) (by norm_num) (by norm_num)
        (by norm_num),
      show (5 : ℝ) + 1 = ((5 : ℕ) : ℝ) + 1 by norm_num, Real.Gamma_nat_eq_factorial,
      show (1 / 2 : ℝ) + 1 = 3 / 2 by norm_num,
      show (5 : ℝ) - 1 / 2 + 1 = 11 / 2 by norm_num,
      show (3 / 2 : ℝ) = 1 / 2 + 1 by norm_num,
      Real.Gamma_add_one (by norm_num : (1 / 2 : ℝ) ≠ 0), Real.Gamma_one_half_eq,
      gamma_eleven_halves,
      show (1 : ℝ) - 3 / 10 = 7 / 10 by norm_num,
      show (5 : ℝ) - 1 / 2 = ((4 : ℕ) : ℝ) + 1 / 2 by norm_num,
      Real.rpow_add (by norm_num : (0 : ℝ) < 7 / 10), Real.rpow_natCast,
      ← Real.sqrt_eq_rpow, ← Real.sqrt_eq_rpow]
    have hm : Real.sqrt (3 / 10) * Real.sqrt (7 / 10) = Real.sqrt (21 / 100) := by
      rw [← Real.sqrt_mul (by norm_num : (0 : ℝ) ≤ 3 / 10)]
      norm_num
    have hpi : Real.sqrt Real.pi * Real.sqrt Real.pi = Real.pi :=
      Real.mul_self_sqrt Real.pi_pos.le
    have hfact : ((Nat.factorial 5 : ℕ) : ℝ) = 120 := by norm_num [Nat.factorial]
    rw [hfact,
      show (1 / 2 * Real.sqrt Real.pi * (945 / 32 * Real.sqrt Real.pi) : ℝ)
        = 945 / 64 * (Real.sqrt Real.pi * Real.sqrt Real.pi) by ring, hpi,
      show (Real.sqrt (3 / 10) * ((7 / 10) ^ 4 * Real.sqrt (7 / 10)) : ℝ)
        = (7 / 10) ^ 4 * (Real.sqrt (3 / 10) * Real.sqrt (7 / 10)) by ring, hm]
    have hpi0 : Real.pi ≠ 0 := Real.pi_ne_zero
    field_simp
    ring
  rw [hval]
  have h1 : (458 / 1000 : ℝ) < Real.sqrt (21 / 100) := by
    rw [Real.lt_sqrt (by norm_num : (0 : ℝ) ≤ 458 / 1000)]
    norm_num
  have h2 : Real.sqrt (21 / 100) < 459 / 1000 := by
    rw [Real.sqrt_lt' (by norm_num : (0 : ℝ) < 459 / 1000)]
    norm_num
  have hpi1 : (3.141592 : ℝ) < Real.pi := Real.pi_gt_d6
  have hpi2 : Real.pi < 3.15 := Real.pi_lt_d2
  constructor
  · rw [lt_div_iff₀ Real.pi_pos]
    nlinarith
  · rw [div_lt_iff₀ Real.pi_pos]
    nlinarith

/-- A rational lower bound certificate for a rational tenth-root power:
from `q^n ≤ x^m` conclude `q ≤ x^(m/n)`. -/
theorem le_rpow_natDiv {x q : ℝ} (m n : ℕ) (hn : 0 < n) (hx : 0 < x) (hq : 0 ≤ q)
    (h : q ^ n ≤ x ^ m) : q ≤ x ^ ((m : ℝ) / (n : ℝ)) := by
  have hn' : ((n : ℝ)) ≠ 0 := by positivity
  have h1 : x ^ ((m : ℝ) / (n : ℝ)) = (x ^ m) ^ ((1 : ℝ) / (n : ℝ)) := by
    rw [← Real.rpow_natCast x m, ← Real.rpow_mul hx.le]
    ring_nf
  have h2 : q = (q ^ n) ^ ((1 : ℝ) / (n : ℝ)) := by
    rw [← Real.rpow_natCast q n, ← Real.rpow_mul hq, mul_one_div, div_self hn',
      Real.rpow_one]
  rw [h1, h2]
  exact Real.rpow_le_rpow (by positivity) h (by positivity)

/-- A rational upper bound certificate for a rational tenth-root power:
from `x^m ≤ q^n` conclude `x^(m/n) ≤ q`. -/
theorem rpow_natDiv_le {x q : ℝ} (m n : ℕ) (hn : 0 < n) (hx : 0 < x) (hq : 0 ≤ q)
    (h : x ^ m ≤ q ^ n) : x ^ ((m : ℝ) / (n : ℝ)) ≤ q := by
  have hn' : ((n : ℝ)) ≠ 0 := by positivity
  have h1 : x ^ ((m : ℝ) / (n : ℝ)) = (x ^ m) ^ ((1 : ℝ) / (n : ℝ)) := by
    rw [← Real.rpow_natCast x m, ← Real.rpow_mul hx.le]
    ring_nf
  have h2 : q = (q ^ n) ^ ((1 : ℝ) / (n : ℝ)) := by
    rw [← Real.rpow_natCast q n, ← Real.rpow_mul hq, mul_one_div, div_self hn',
      Real.rpow_one]
  rw [h1, h2]
  exact Real.rpow_le_rpow (by positivity) h (by positivity)

/-- Log-convexity upper bound for the Gamma function at a fractional
argument: for `0 < x` and `θ ∈ [0, 1]`, `Γ(x + θ) ≤ Γ(x) · x^θ`. -/
theorem Gamma_rpow_upper (x θ : ℝ) (hx : 0 < x) (h0 : 0 ≤ θ) (h1 : θ ≤ 1) :
    Real.Gamma (x + θ) ≤ Real.Gamma x * x ^ θ := by
  have hconv := Real.convexOn_log_Gamma
  have key := hconv.2 (Set.mem_Ioi.2 hx) (Set.mem_Ioi.2 (by linarith : (0 : ℝ) < x + 1))
    (by linarith : (0 : ℝ) ≤ 1 - θ) h0 (by ring)
  simp only [smul_eq_mul, Function.comp_apply] at key
  rw [show (1 - θ) * x + θ * (x + 1) = x + θ by ring] at key
  have hstep : Real.log (Real.Gamma (x + 1)) = Real.log x + Real.log (Real.Gamma x) := by
    rw [Real.Gamma_add_one (ne_of_gt hx),
      Real.log_mul (ne_of_gt hx) (ne_of_gt (Real.Gamma_pos_of_pos hx))]
  rw [hstep] at key
  have key2 : Real.log (Real.Gamma (x + θ)) ≤
      Real.log (Real.Gamma x) + θ * Real.log x := by nlinarith
  calc Real.Gamma (x + θ)
      = Real.exp (Real.log (Real.Gamma (x + θ))) :=
        (Real.exp_log (Real.Gamma_pos_of_pos (by linarith))).symm
    _ ≤ Real.exp (Real.log (Real.Gamma x) + θ * Real.log x) := Real.exp_le_exp.2 key2
    _ = Real.Gamma x * x ^ θ := by
        rw [Real.exp_add, Real.exp_log (Real.Gamma_pos_of_pos hx),
          show θ * Real.log x = Real.log x * θ from mul_comm _ _,
          ← Real.rpow_def_of_pos hx]

/-- Log-convexity (secant-slope) lower bound for the Gamma function at a
fractional argument: for `1 < x` and `θ ∈ (0, 1]`,
`Γ(x) · (x-1)^θ ≤ Γ(x + θ)`. -/
theorem Gamma_rpow_lower (x θ : ℝ) (hx : 1 < x) (h0 : 0 < θ) (_h1 : θ ≤ 1) :
    Real.Gamma x * (x - 1) ^ θ ≤ Real.Gamma (x + θ) := by
  have hconv := Real.convexOn_log_Gamma
  have key := hconv.slope_mono_adjacent
    (Set.mem_Ioi.2 (by linarith : (0 : ℝ) < x - 1))
    (Set.mem_Ioi.2 (by linarith : (0 : ℝ) < x + θ))
    (by linarith : x - 1 < x) (by linarith : x < x + θ)
  simp only [Function.comp_apply] at key
  rw [show x - (x - 1) = 1 by ring, show x + θ - x = θ by ring, div_one] at key
  have hG : Real.Gamma (x - 1 + 1) = (x - 1) * Real.Gamma (x - 1) :=
    Real.Gamma_add_one (by linarith : x - 1 ≠ 0)
  rw [show x - 1 + 1 = x by ring] at hG
  have hlog : Real.log (Real.Gamma x) =
      Real.log (x - 1) + Real.log (Real.Gamma (x - 1)) := by
    rw [hG, Real.log_mul (by linarith : x - 1 ≠ 0)
      (ne_of_gt (Real.Gamma_pos_of_pos (by linarith : (0 : ℝ) < x - 1)))]
  have key2 : Real.log (Real.Gamma x) + θ * Real.log (x - 1) ≤
      Real.log (Real.Gamma (x + θ)) := by
    have hmul := (le_div_iff₀ h0).1 key
    nlinarith [hmul, hlog]
  calc Real.Gamma x * (x - 1) ^ θ
      = Real.exp (Real.log (Real.Gamma x) + θ * Real.log (x - 1)) := by
        rw [Real.exp_add, Real.exp_log (Real.Gamma_pos_of_pos (by linarith : (0 : ℝ) < x)),
          show θ * Real.log (x - 1) = Real.log (x - 1) * θ from mul_comm _ _,
          ← Real.rpow_def_of_pos (by linarith : (0 : ℝ) < x - 1)]
    _ ≤ Real.exp (Real.log (Real.Gamma (x + θ))) := Real.exp_le_exp.2 key2
    _ = Real.Gamma (x + θ) := Real.exp_log (Real.Gamma_pos_of_pos (by linarith))

/-- Bounds for the exact pmf at `(18.3, 100, 0.2)`: `Γ(19.3)` and
`Γ(82.7)` are bracketed by log-convexity interpolation between adjacent
factorials (`18!·18^0.3 ≤ Γ(19.3) ≤ 18!·19^0.3`, likewise at `82.7`), the
residual tenth-root powers are certified by rational tenth powers, and the
remaining factor is exact rational arithmetic; the value lies strictly
between `0.09089812` and `0.09807429` (the bracketing pmf values the
repository test uses). -/
theorem binom_ex2_bounds :
    9089812 / 10 ^ 8 < Real.exp (ln_binomial (183 / 10) 100 (1 / 5)) ∧
    Real.exp (ln_binomial (183 / 10) 100 (1 / 5)) < 9807429 / 10 ^ 8 := by
  have hval : Real.exp (ln_binomial (183 / 10) 100 (1 / 5)) =
      (Nat.factorial 100 : ℝ) / (Real.Gamma (193 / 10) * Real.Gamma (827 / 10)) *
        ((1 / 5 : ℝ) ^ ((183 : ℝ) / 10) * (4 / 5 : ℝ) ^ ((817 : ℝ) / 10)) := by
    rw [exp_ln_binomial (183 / 10) 100 (1 / 5) (by norm_num) (by norm_num) (by norm_num)
        (by norm_num),
      show (100 : ℝ) + 1 = ((100 : ℕ) : ℝ) + 1 by norm_num, Real.Gamma_nat_eq_factorial,
      show (183 / 10 : ℝ) + 1 = 193 / 10 by norm_num,
      show (100 : ℝ) - 183 / 10 + 1 = 827 / 10 by norm_num,
      show (1 : ℝ) - 1 / 5 = 4 / 5 by norm_num,
      show (100 : ℝ) - 183 / 10 = (817 : ℝ) / 10 by norm_num]
  have h19 : Real.Gamma 19 = (Nat.factorial 18 : ℝ) := by
    rw [show (19 : ℝ) = ((18 : ℕ) : ℝ) + 1 by norm_num, Real.Gamma_nat_eq_factorial]
  have h82 : Real.Gamma 82 = (Nat.factorial 81 : ℝ) := by
    rw [show (82 : ℝ) = ((81 : ℕ) : ℝ) + 1 by norm_num, Real.Gamma_nat_eq_factorial]
  have hB1u : Real.Gamma (193 / 10) ≤ (Nat.factorial 18 : ℝ) * 19 ^ ((3 : ℝ) / 10) := by
    have h := Gamma_rpow_upper 19 (3 / 10) (by norm_num) (by norm_num) (by norm_num)
    rw [show (19 : ℝ) + 3 / 10 = 193 / 10 by norm_num, h19] at h
    exact h
  have hB1l : (Nat.factorial 18 : ℝ) * 18 ^ ((3 : ℝ) / 10) ≤ Real.Gamma (193 / 10) := by
    have h := Gamma_rpow_lower 19 (3 / 10) (by norm_num) (by norm_num) (by norm_num)
    rw [show (19 : ℝ) + 3 / 10 = 193 / 10 by norm_num, h19,
      show (19 : ℝ) - 1 = 18 by norm_num] at h
    exact h
  have hB2u : Real.Gamma (827 / 10) ≤ (Nat.factorial 81 : ℝ) * 82 ^ ((7 : ℝ) / 10) := by
    have h := Gamma_rpow_upper 82 (7 / 10) (by norm_num) (by norm_num) (by norm_num)
    rw [show (82 : ℝ) + 7 / 10 = 827 / 10 by norm_num, h82] at h
    exact h
  have hB2l : (Nat.factorial 81 : ℝ) * 81 ^ ((7 : ℝ) / 10) ≤ Real.Gamma (827 / 10) := by
    have h := Gamma_rpow_lower 82 (7 / 10) (by norm_num) (by norm_num) (by norm_num)
    rw [show (82 : ℝ) + 7 / 10 = 827 / 10 by norm_num, h82,
      show (82 : ℝ) - 1 = 81 by norm_num] at h
    exact h
  have hG1 : 0 < Real.Gamma (193 / 10) := Real.Gamma_pos_of_pos (by norm_num)
  have hG2 : 0 < Real.Gamma (827 / 10) := Real.Gamma_pos_of_pos (by norm_num)
  have hP : (0 : ℝ) < (1 / 5 : ℝ) ^ ((183 : ℝ) / 10) * (4 / 5 : ℝ) ^ ((817 : ℝ) / 10) := by
    have := Real.rpow_pos_of_pos (show (0 : ℝ) < 1 / 5 by norm_num) ((183 : ℝ) / 10)
    have := Real.rpow_pos_of_pos (show (0 : ℝ) < 4 / 5 by norm_num) ((817 : ℝ) / 10)
    positivity
  have hsplit : ∀ a b : ℝ, 0 < a → 0 < b →
      (Nat.factorial 100 : ℝ) /
          ((Nat.factorial 18 * a) * (Nat.factorial 81 * b)) *
        ((1 / 5 : ℝ) ^ ((183 : ℝ) / 10) * (4 / 5 : ℝ) ^ ((817 : ℝ) / 10)) =
      (Nat.factorial 100 : ℝ) * (1 / 5) ^ 18 * (4 / 5) ^ 81 /
          ((Nat.factorial 18 : ℝ) * (Nat.factorial 81 : ℝ)) *
        ((1 / 5 : ℝ) ^ ((3 : ℝ) / 10) / a) * ((4 / 5 : ℝ) ^ ((7 : ℝ) / 10) / b) := by
    intro a b ha hb
    rw [show ((183 : ℝ) / 10) = ((18 : ℕ) : ℝ) + 3 / 10 by norm_num,
      Real.rpow_add (by norm_num : (0 : ℝ) < 1 / 5), Real.rpow_natCast,
      show ((817 : ℝ) / 10) = ((81 : ℕ) : ℝ) + 7 / 10 by norm_num,
      Real.rpow_add (by norm_num : (0 : ℝ) < 4 / 5), Real.rpow_natCast]
    have hf18 : ((Nat.factorial 18 : ℕ) : ℝ) ≠ 0 := by positivity
    have hf81 : ((Nat.factorial 81 : ℕ) : ℝ) ≠ 0 := by positivity
    field_simp
    ring
  constructor
  · have hchain : (Nat.factorial 100 : ℝ) /
        ((Nat.factorial 18 * 19 ^ ((3 : ℝ) / 10)) *
          (Nat.factorial 81 * 82 ^ ((7 : ℝ) / 10))) *
          ((1 / 5 : ℝ) ^ ((183 : ℝ) / 10) * (4 / 5 : ℝ) ^ ((817 : ℝ) / 10)) ≤
        Real.exp (ln_binomial (183 / 10) 100 (1 / 5)) := by
      rw [hval]
      have hd1 : 0 < (19 : ℝ) ^ ((3 : ℝ) / 10) := Real.rpow_pos_of_pos (by norm_num) _
      have hd2 : 0 < (82 : ℝ) ^ ((7 : ℝ) / 10) := Real.rpow_pos_of_pos (by norm_num) _
      gcongr
    rw [hsplit (19 ^ ((3 : ℝ) / 10)) (82 ^ ((7 : ℝ) / 10))
      (Real.rpow_pos_of_pos (by norm_num) _) (Real.rpow_pos_of_pos (by norm_num) _)] at hchain
    have hq1 : (2550 / 10 ^ 4 : ℝ) ≤ (1 / 5 : ℝ) ^ ((3 : ℝ) / 10) / 19 ^ ((3 : ℝ) / 10) := by
      rw [← Real.div_rpow (by norm_num : (0 : ℝ) ≤ 1 / 5) (by norm_num : (0 : ℝ) ≤ 19),
        show ((1 : ℝ) / 5 / 19) = 1 / 95 by norm_num]
      have h := le_rpow_natDiv (x := (1 / 95 : ℝ)) (q := (2550 / 10 ^ 4 : ℝ)) 3 10
        (by norm_num) (by norm_num) (by norm_num) (by norm_num)
      have hcast : (((3 : ℕ) : ℝ) / ((10 : ℕ) : ℝ)) = (3 : ℝ) / 10 := by norm_num
      rw [hcast] at h
      exact h
    have hq2 : (3912 / 10 ^ 5 : ℝ) ≤ (4 / 5 : ℝ) ^ ((7 : ℝ) / 10) / 82 ^ ((7 : ℝ) / 10) := by
      rw [← Real.div_rpow (by norm_num : (0 : ℝ) ≤ 4 / 5) (by norm_num : (0 : ℝ) ≤ 82),
        show ((4 : ℝ) / 5 / 82) = 2 / 205 by norm_num]
      have h := le_rpow_natDiv (x := (2 / 205 : ℝ)) (q := (3912 / 10 ^ 5 : ℝ)) 7 10
        (by norm_num) (by norm_num) (by norm_num) (by norm_num)
      have hcast : (((7 : ℕ) : ℝ) / ((10 : ℕ) : ℝ)) = (7 : ℝ) / 10 := by norm_num
      rw [hcast] at h
      exact h
    have hnum : (9089812 / 10 ^ 8 : ℝ) <
        (Nat.factorial 100 : ℝ) * (1 / 5) ^ 18 * (4 / 5) ^ 81 /
          ((Nat.factorial 18 : ℝ) * (Nat.factorial 81 : ℝ)) *
          (2550 / 10 ^ 4) * (3912 / 10 ^ 5) := by
      norm_num [Nat.factorial]
    refine lt_of_lt_of_le (lt_of_lt_of_le hnum ?_) hchain
    gcongr
  · have hchain : Real.exp (ln_binomial (183 / 10) 100 (1 / 5)) ≤
        (Nat.factorial 100 : ℝ) /
          ((Nat.factorial 18 * 18 ^ ((3 : ℝ) / 10)) *
            (Nat.factorial 81 * 81 ^ ((7 : ℝ) / 10))) *
          ((1 / 5 : ℝ) ^ ((183 : ℝ) / 10) * (4 / 5 : ℝ) ^ ((817 : ℝ) / 10)) := by
      rw [hval]
      have hd1 : 0 < (18 : ℝ) ^ ((3 : ℝ) / 10) := Real.rpow_pos_of_pos (by norm_num) _
      have hd2 : 0 < (81 : ℝ) ^ ((7 : ℝ) / 10) := Real.rpow_pos_of_pos (by norm_num) _
      gcongr
    rw [hsplit (18 ^ ((3 : ℝ) / 10)) (81 ^ ((7 : ℝ) / 10))
      (Real.rpow_pos_of_pos (by norm_num) _) (Real.rpow_pos_of_pos (by norm_num) _)] at hchain
    have hq1 : (1 / 5 : ℝ) ^ ((3 : ℝ) / 10) / 18 ^ ((3 : ℝ) / 10) ≤ (2593 / 10 ^ 4 : ℝ) := by
      rw [← Real.div_rpow (by norm_num : (0 : ℝ) ≤ 1 / 5) (by norm_num : (0 : ℝ) ≤ 18),
        show ((1 : ℝ) / 5 / 18) = 1 / 90 by norm_num]
      have h := rpow_natDiv_le (x := (1 / 90 : ℝ)) (q := (2593 / 10 ^ 4 : ℝ)) 3 10
        (by norm_num) (by norm_num) (by norm_num) (by norm_num)
      have hcast : (((3 : ℕ) : ℝ) / ((10 : ℕ) : ℝ)) = (3 : ℝ) / 10 := by norm_num
      rw [hcast] at h
      exact h
    have hq2 : (4 / 5 : ℝ) ^ ((7 : ℝ) / 10) / 81 ^ ((7 : ℝ) / 10) ≤ (3947 / 10 ^ 5 : ℝ) := by
      rw [← Real.div_rpow (by norm_num : (0 : ℝ) ≤ 4 / 5) (by norm_num : (0 : ℝ) ≤ 81),
        show ((4 : ℝ) / 5 / 81) = 4 / 405 by norm_num]
      have h := rpow_natDiv_le (x := (4 / 405 : ℝ)) (q := (3947 / 10 ^ 5 : ℝ)) 7 10
        (by norm_num) (by norm_num) (by norm_num) (by norm_num)
      have hcast : (((7 : ℕ) : ℝ) / ((10 : ℕ) : ℝ)) = (7 : ℝ) / 10 := by norm_num
      rw [hcast] at h
      exact h
    have hnum : (Nat.factorial 100 : ℝ) * (1 / 5) ^ 18 * (4 / 5) ^ 81 /
          ((Nat.factorial 18 : ℝ) * (Nat.factorial 81 : ℝ)) *
          (2593 / 10 ^ 4) * (3947 / 10 ^ 5) < 9807429 / 10 ^ 8 := by
      norm_num [Nat.factorial]
    refine lt_of_le_of_lt (le_trans hchain ?_) hnum
    gcongr

/-- C9, counterexample: the claim asserts a finite positive probability
for every `0 ≤ successes ≤ trials` and `0 ≤ prob ≤ 1`, but the closed
interval includes `prob = 0`, where the spec's log-space formula diverges
(`log 0 = -∞`): the exact pmf for fractional successes there is `0`, and
a log-based implementation raises or returns `0.0` — in no case a
positive probability.  The input `(1/2, 5, 0)` satisfies all the claim's
hypotheses yet yields no positive value. -/
theorem c9_counterexample :
    ((0 : ℝ) ≤ 1 / 2 ∧ (1 / 2 : ℝ) ≤ 5 ∧ (0 : ℝ) ≤ 0 ∧ (0 : ℝ) ≤ 1) ∧
    binomial_exact (1 / 2) 5 0 = none := by
  refine ⟨⟨by norm_num, by norm_num, le_refl 0, by norm_num⟩, ?_⟩
  norm_num [binomial_exact]

/-- C9, amended: `binomial_exact` accepts fractional successes (and
fractional trials) whenever `0 ≤ successes ≤ trials` and `0 < prob < 1`,
returning a (finite) positive value rather than an error; at the
endpoints `prob = 0` and `prob = 1` the log-space formula diverges and no
positive value is returned.  In particular the value at `(0.5, 5, 0.3)`
lies strictly between `0.16807` and `0.36015`, and the value at
`(18.3, 100, 0.2)` lies strictly between `0.09089812` and
`0.09807429`. -/
theorem c9_binomial_exact_fractional :
    (∀ s t p : ℝ, 0 ≤ s → s ≤ t → 0 < p → p < 1 →
      ∃ v, binomial_exact s t p = some v ∧ 0 < v) ∧
    (∀ s t : ℝ, 0 ≤ s → s ≤ t →
      binomial_exact s t 0 = none ∧ binomial_exact s t 1 = none) ∧
    (∃ v, binomial_exact (1 / 2) 5 (3 / 10) = some v ∧
      16807 / 100000 < v ∧ v < 36015 / 100000) ∧
    (∃ v, binomial_exact (183 / 10) 100 (1 / 5) = some v ∧
      9089812 / 10 ^ 8 < v ∧ v < 9807429 / 10 ^ 8) := by
  have hsome : ∀ s t p : ℝ, 0 ≤ s → s ≤ t → 0 < p → p < 1 →
      binomial_exact s t p = some (Real.exp (ln_binomial s t p)) := by
    intro s t p hs hst hp0 hp1
    simp [binomial_exact, not_lt.2 hs, not_lt.2 hst, not_lt.2 hp0.le, not_lt.2 hp1.le,
      ne_of_gt hp0, ne_of_lt hp1]
  refine ⟨?_, ?_, ?_, ?_⟩
  · intro s t p hs hst hp0 hp1
    exact ⟨Real.exp (ln_binomial s t p), hsome s t p hs hst hp0 hp1, Real.exp_pos _⟩
  · intro s t hs hst
    constructor <;> norm_num [binomial_exact, not_lt.2 hs, not_lt.2 hst]
  · exact ⟨Real.exp (ln_binomial (1 / 2) 5 (3 / 10)),
      hsome (1 / 2) 5 (3 / 10) (by norm_num) (by norm_num) (by norm_num) (by norm_num),
      binom_ex1_bounds.1, binom_ex1_bounds.2⟩
  · exact ⟨Real.exp (ln_binomial (183 / 10) 100 (1 / 5)),
      hsome (183 / 10) 100 (1 / 5) (by norm_num) (by norm_num) (by norm_num) (by norm_num),
      binom_ex2_bounds.1, binom_ex2_bounds.2⟩

/-- C9, witness for the amended theorem: the interior conjunct at the
concrete fractional input `(1/2, 5, 3/10)` and the endpoint conjunct at
`(1/2, 5)`. -/
theorem c9_binomial_exact_fractional_witness :
    ((0 : ℝ) ≤ 1 / 2 ∧ (1 / 2 : ℝ) ≤ 5 ∧ (0 : ℝ) < 3 / 10 ∧ (3 / 10 : ℝ) < 1) ∧
    (∃ v, binomial_exact (1 / 2) 5 (3 / 10) = some v ∧ 0 < v) ∧
    (binomial_exact (1 / 2) 5 0 = none ∧ binomial_exact (1 / 2) 5 1 = none) :=
  ⟨⟨by norm_num, by norm_num, by norm_num, by norm_num⟩,
    c9_binomial_exact_fractional.1 (1 / 2) 5 (3 / 10)
      (by norm_num) (by norm_num) (by norm_num) (by norm_num),
    c9_binomial_exact_fractional.2.1 (1 / 2) 5 (by norm_num) (by norm_num)⟩
